import Mathlib

/-!
Verification of the animation model of `just-breathe` (src/main.rs).

The breathing state machine, its easing/interpolation helpers and the
event-loop scheduler closure are embedded shallowly over `ℚ` (the Rust
code computes with `f64`; all the operations involved — addition,
subtraction, multiplication, division by 4, comparisons — are modelled
by exact rational arithmetic).
-/

namespace JustBreathe

/-- The `BreatheState` enum from src/main.rs: four phases, each carrying
its elapsed time in seconds. -/
inductive BreatheState : Type
  | In (t : ℚ)
  | HoldIn (t : ℚ)
  | Out (t : ℚ)
  | HoldOut (t : ℚ)
  deriving DecidableEq

/-- `fn lerp(t, a, b) = ((1.0 - t) * a) + (t * b)` from src/main.rs. -/
def lerp (t a b : ℚ) : ℚ := ((1 - t) * a) + (t * b)

/-- `fn ease_in_out_cubic(x)` from src/main.rs: `4*x*x*x` when `x < 0.5`,
else `y = x.mul_add(2., -2.); (y*y*y).mul_add(0.5, 1.)`. -/
def ease_in_out_cubic (x : ℚ) : ℚ :=
  if x < 0.5 then 4 * x * x * x
  else
    let y := x * 2 + (-2)
    (y * y * y) * 0.5 + 1

/-- `BreatheState::scale` from src/main.rs (the `as f32` narrowing of the
result is not modelled; the quantities are exact rationals here). -/
def BreatheState.scale : BreatheState → ℚ
  | .In t => lerp (ease_in_out_cubic (t / 4)) 0.25 1
  | .HoldIn _ => 1
  | .Out t => lerp (ease_in_out_cubic (t / 4)) 1 0.25
  | .HoldOut _ => 0.25

/-- The hue (in degrees) computed by the `match` inside
`BreatheState::colour` in src/main.rs, with `blue = 260.0` and
`red = 330.0`; the subsequent HSL→linear-RGB conversion (the `palette`
crate) is external to the repository and not modelled. -/
def BreatheState.colourHue : BreatheState → ℚ
  | .In _ => 260
  | .HoldIn t => lerp (ease_in_out_cubic (t / 4)) 260 330
  | .Out _ => 330
  | .HoldOut t => lerp (ease_in_out_cubic (t / 4)) 330 260

/-- `BreatheState::advance` from src/main.rs: add `dt` to the carried
timer; on reaching `4.0`, subtract `4.0` once and move to the next
variant in the cycle `In → HoldIn → Out → HoldOut → In`. -/
def BreatheState.advance : BreatheState → ℚ → BreatheState
  | .In t, dt =>
      if t + dt ≥ 4 then .HoldIn (t + dt - 4) else .In (t + dt)
  | .HoldIn t, dt =>
      if t + dt ≥ 4 then .Out (t + dt - 4) else .HoldIn (t + dt)
  | .Out t, dt =>
      if t + dt ≥ 4 then .HoldOut (t + dt - 4) else .Out (t + dt)
  | .HoldOut t, dt =>
      if t + dt ≥ 4 then .In (t + dt - 4) else .HoldOut (t + dt)

/-- The elapsed timer carried by the current variant. -/
def BreatheState.elapsed : BreatheState → ℚ
  | .In t => t
  | .HoldIn t => t
  | .Out t => t
  | .HoldOut t => t

/-- Position of the variant in the cycle `In, HoldIn, Out, HoldOut`. -/
def BreatheState.idx : BreatheState → ℕ
  | .In _ => 0
  | .HoldIn _ => 1
  | .Out _ => 2
  | .HoldOut _ => 3

/-- Total phase time: `4 * idx + elapsed`, ranging over `[0, 16)` when the
elapsed invariant holds. -/
def BreatheState.total (s : BreatheState) : ℚ := 4 * (s.idx : ℚ) + s.elapsed

/-- Folding `advance` over a list of `dt` values. -/
def advances (s : BreatheState) (l : List ℚ) : BreatheState :=
  l.foldl BreatheState.advance s

/-- The easing curve as the spec words it: `f(x) = 4x³` when `x < 0.5`,
else `f(x) = 1 − 4(1−x)³`. -/
def ease_in_out_cubic_spec (x : ℚ) : ℚ :=
  if x < 0.5 then 4 * x ^ 3 else 1 - 4 * (1 - x) ^ 3

/-- The linear blend as the spec words it: `lerp(t, a, b) = (1−t)·a + t·b`. -/
def lerp_spec (t a b : ℚ) : ℚ := (1 - t) * a + t * b

/-! ### The event-loop scheduler closure -/

/-- `const UPDATE_PERIOD: f64 = 1.0 / 60.0` from src/main.rs. -/
def UPDATE_PERIOD : ℚ := 1 / 60

/-- The events the `event_loop.run` closure in src/main.rs distinguishes:
`MainEventsCleared` (a frame tick), `RedrawRequested`, the `Resized` and
`CloseRequested` window events, and everything else. -/
inductive LoopEvent : Type
  | MainEventsCleared
  | RedrawRequested
  | Resized
  | CloseRequested
  | Other
  deriving DecidableEq

/-- The mutable state captured by the closure: `last_time`,
`last_render_time` (both `Instant`s, modelled as rational timestamps) and
`breathe_state`; `redraw_requested` records a pending
`window().request_redraw()` call. -/
structure LoopState : Type where
  last_time : ℚ
  last_render_time : ℚ
  breathe_state : BreatheState
  redraw_requested : Bool
  deriving DecidableEq

/-- The observable effects of one closure invocation: the wake-up time
the closure stores into `control_flow` (`WaitUntil(last_render_time +
UPDATE_PERIOD)`), whether it issued a draw call, and whether it set
`ControlFlow::Exit`. -/
structure StepOut : Type where
  wakeUp : ℚ
  drew : Bool
  exitRequested : Bool
  deriving DecidableEq

/-- One invocation of the `event_loop.run` closure (src/main.rs lines
187–231) on event `e` at wall-clock time `now`. The closure first stores
`WaitUntil(last_render_time + UPDATE_PERIOD)` into `control_flow`, then
matches on the event: `MainEventsCleared` advances the model by
`now − last_time` and requests a redraw; `RedrawRequested` sets
`last_render_time = now` and issues one draw call; `Resized` requests a
redraw; `CloseRequested` sets `ControlFlow::Exit`. -/
def loopStep (s : LoopState) (e : LoopEvent) (now : ℚ) : LoopState × StepOut :=
  let wake := s.last_render_time + UPDATE_PERIOD
  match e with
  | .MainEventsCleared =>
      ({ s with last_time := now,
                breathe_state := s.breathe_state.advance (now - s.last_time),
                redraw_requested := true },
       ⟨wake, false, false⟩)
  | .RedrawRequested =>
      ({ s with last_render_time := now, redraw_requested := false },
       ⟨wake, true, false⟩)
  | .Resized =>
      ({ s with redraw_requested := true }, ⟨wake, false, false⟩)
  | .CloseRequested =>
      (s, ⟨wake, false, true⟩)
  | .Other =>
      (s, ⟨wake, false, false⟩)

/-- Run the closure over a timed event trace and collect the timestamps
of the draw calls it issues. -/
def drawTimes : LoopState → List (LoopEvent × ℚ) → List ℚ
  | _, [] => []
  | s, (e, now) :: rest =>
      let p := loopStep s e now
      if p.2.drew then now :: drawTimes p.1 rest else drawTimes p.1 rest

/-! ### Helper lemmas about the easing curve -/

lemma ease_eq_spec (x : ℚ) : ease_in_out_cubic x = ease_in_out_cubic_spec x := by
  unfold ease_in_out_cubic ease_in_out_cubic_spec
  split <;> ring

lemma cube_le_cube (a b : ℚ) (h : a ≤ b) : a * a * a ≤ b * b * b := by
  nlinarith [sq_nonneg (a + b), sq_nonneg (a - b), sq_nonneg a, sq_nonneg b]

lemma ease_mono (x y : ℚ) (hxy : x ≤ y) :
    ease_in_out_cubic x ≤ ease_in_out_cubic y := by
  unfold ease_in_out_cubic
  by_cases hx : x < 0.5 <;> by_cases hy : y < 0.5 <;>
      simp only [hx, hy, if_pos, if_neg, not_lt]
  · have := cube_le_cube x y hxy
    linarith
  · have h1 : x * x * x ≤ (1 / 2) * (1 / 2) * (1 / 2) :=
      cube_le_cube x (1 / 2) (by norm_num at hx ⊢; linarith)
    have h2 : (-1 : ℚ) * (-1) * (-1) ≤ (y * 2 + -2) * (y * 2 + -2) * (y * 2 + -2) :=
      cube_le_cube (-1) (y * 2 + -2) (by norm_num at hy ⊢; linarith)
    norm_num at h1 h2 ⊢
    linarith
  · exfalso
    norm_num at hx hy
    linarith
  · have := cube_le_cube (x * 2 + -2) (y * 2 + -2) (by linarith)
    norm_num
    linarith

lemma ease_zero : ease_in_out_cubic 0 = 0 := by norm_num [ease_in_out_cubic]

lemma ease_one : ease_in_out_cubic 1 = 1 := by norm_num [ease_in_out_cubic]

lemma ease_nonneg (x : ℚ) (h : 0 ≤ x) : 0 ≤ ease_in_out_cubic x := by
  have := ease_mono 0 x h
  rwa [ease_zero] at this

lemma ease_le_one (x : ℚ) (h : x ≤ 1) : ease_in_out_cubic x ≤ 1 := by
  have := ease_mono x 1 h
  rwa [ease_one] at this

/-! ### Claim theorems -/

/-- C4: the implemented easing function agrees everywhere with the spec
reference `4x³` / `1 − 4(1−x)³`, and the implemented linear blend agrees
with `(1−t)·a + t·b`. -/
theorem C4_easing_and_lerp_match_reference :
    (∀ x : ℚ, ease_in_out_cubic x = ease_in_out_cubic_spec x) ∧
    (∀ t a b : ℚ, lerp t a b = lerp_spec t a b) :=
  ⟨ease_eq_spec, fun _ _ _ => rfl⟩

/-- C5: on any phase whose elapsed timer lies in `[0, 4)`, `scale` returns
a value in `[0.25, 1.0]`. -/
theorem C5_scale_in_range (s : BreatheState) (h0 : 0 ≤ s.elapsed)
    (h4 : s.elapsed < 4) : 0.25 ≤ s.scale ∧ s.scale ≤ 1 := by
  cases s with
  | In t =>
    simp only [BreatheState.elapsed] at h0 h4
    have e0 : 0 ≤ ease_in_out_cubic (t / 4) := ease_nonneg _ (by linarith)
    have e1 : ease_in_out_cubic (t / 4) ≤ 1 := ease_le_one _ (by linarith)
    simp only [BreatheState.scale, lerp]
    norm_num
    constructor <;> linarith
  | HoldIn t => simp [BreatheState.scale]; norm_num
  | Out t =>
    simp only [BreatheState.elapsed] at h0 h4
    have e0 : 0 ≤ ease_in_out_cubic (t / 4) := ease_nonneg _ (by linarith)
    have e1 : ease_in_out_cubic (t / 4) ≤ 1 := ease_le_one _ (by linarith)
    simp only [BreatheState.scale, lerp]
    norm_num
    constructor <;> linarith
  | HoldOut t => simp [BreatheState.scale]; norm_num

/-- Witness for C5 at the concrete phase `In 2`. -/
theorem C5_scale_in_range_witness :
    0.25 ≤ (BreatheState.In 2).scale ∧ (BreatheState.In 2).scale ≤ 1 :=
  C5_scale_in_range (BreatheState.In 2) (by norm_num [BreatheState.elapsed])
    (by norm_num [BreatheState.elapsed])

/-- C6: `scale` takes the stated boundary values: `0.25` at `In 0`, `1.0`
throughout `HoldIn`, `1.0` at `Out 0` and `0.25` throughout `HoldOut`. -/
theorem C6_scale_boundary_values :
    (BreatheState.In 0).scale = 0.25 ∧
    (∀ t : ℚ, (BreatheState.HoldIn t).scale = 1) ∧
    (BreatheState.Out 0).scale = 1 ∧
    (∀ t : ℚ, (BreatheState.HoldOut t).scale = 0.25) := by
  refine ⟨?_, fun t => rfl, ?_, fun t => rfl⟩ <;>
    norm_num [BreatheState.scale, lerp, ease_in_out_cubic]

/-- C7: over the `In` phase, `scale` is non-decreasing in the timer. -/
theorem C7_inhale_scale_monotone (t1 t2 : ℚ) (h0 : 0 ≤ t1) (h12 : t1 < t2)
    (h4 : t2 ≤ 4) : (BreatheState.In t1).scale ≤ (BreatheState.In t2).scale := by
  have hm : ease_in_out_cubic (t1 / 4) ≤ ease_in_out_cubic (t2 / 4) :=
    ease_mono _ _ (by linarith)
  simp only [BreatheState.scale, lerp]
  norm_num
  linarith

/-- Witness for C7 at the concrete timers `0` and `4`. -/
theorem C7_inhale_scale_monotone_witness :
    (BreatheState.In 0).scale ≤ (BreatheState.In 4).scale :=
  C7_inhale_scale_monotone 0 4 le_rfl (by norm_num) le_rfl

/-- C8: the hue is continuous across the two hold→breath transitions: at
the end of `HoldIn` (timer `4`) the hue equals the constant `Out` hue
`330°`, and at the end of `HoldOut` it equals the constant `In` hue
`260°`. -/
theorem C8_hue_continuous_at_transitions :
    (BreatheState.HoldIn 4).colourHue = 330 ∧
    (BreatheState.HoldOut 4).colourHue = 260 := by
  norm_num [BreatheState.colourHue, lerp, ease_in_out_cubic]

/-- C1: the claimed invariant `elapsed ∈ [0, 4)` after any single
`advance(dt)` with `dt ≥ 0` fails on the code: from `In 0` with
`dt = 8 ≥ 0`, `advance` subtracts the period only once and lands in
`HoldIn 4`, whose elapsed timer is `4`, outside `[0, 4)`. This is the
single-subtraction overflow the spec flags as a latent bug. -/
theorem C1_single_subtraction_overflow :
    (0 : ℚ) ≤ 8 ∧
    (BreatheState.In 0).advance 8 = BreatheState.HoldIn 4 ∧
    ¬ ((BreatheState.In 0).advance 8).elapsed < 4 := by
  refine ⟨by norm_num, ?_, ?_⟩ <;>
    norm_num [BreatheState.advance, BreatheState.elapsed]

/-- C2 counterexample: `advance` neither clamps nor rejects a negative
`dt`; from `In 2` with `dt = -1 < 0` the elapsed timer strictly
decreases, refuting the claim at this input. -/
theorem C2_no_clamp_counterexample :
    (-1 : ℚ) < 0 ∧
    ((BreatheState.In 2).advance (-1)).elapsed < (BreatheState.In 2).elapsed := by
  norm_num [BreatheState.advance, BreatheState.elapsed]

/-- C2 amended: for `dt < 0` and a phase whose timer is below the period,
`advance` applies the negative `dt` unchanged, so the elapsed timer
becomes `elapsed + dt` and strictly decreases; non-negativity of `dt` is
guaranteed upstream by the monotonic clock, not enforced by `advance`. -/
theorem C2_negative_dt_decreases (s : BreatheState) (dt : ℚ) (hdt : dt < 0)
    (h4 : s.elapsed < 4) :
    (s.advance dt).elapsed = s.elapsed + dt ∧
    (s.advance dt).elapsed < s.elapsed := by
  cases s <;>
  · simp only [BreatheState.elapsed] at h4
    rw [BreatheState.advance, if_neg (by simp only [ge_iff_le, not_le]; linarith)]
    refine ⟨rfl, ?_⟩
    simp only [BreatheState.elapsed]
    linarith

/-- Witness for the amended C2 at the concrete phase `In 2`, `dt = -1`. -/
theorem C2_negative_dt_decreases_witness :
    ((BreatheState.In 2).advance (-1)).elapsed = (BreatheState.In 2).elapsed + (-1) ∧
    ((BreatheState.In 2).advance (-1)).elapsed < (BreatheState.In 2).elapsed :=
  C2_negative_dt_decreases (BreatheState.In 2) (-1) (by norm_num)
    (by norm_num [BreatheState.elapsed])

/-- C10: a single `advance(dt)` call performs at most one transition: the
variant index moves forward by `k ∈ {0, 1}` steps in the cycle (mod 4),
the resulting timer is exactly `elapsed + dt − 4k`, and `k = 1` exactly
when `elapsed + dt ≥ 4`. -/
theorem C10_single_step_conservation (s : BreatheState) (dt : ℚ)
    (h0 : 0 ≤ s.elapsed) (hdt : 0 ≤ dt) :
    (s.advance dt).elapsed
      = s.elapsed + dt - 4 * (if s.elapsed + dt ≥ 4 then 1 else 0) ∧
    (s.advance dt).idx
      = (s.idx + (if s.elapsed + dt ≥ 4 then 1 else 0)) % 4 := by
  cases s <;> rename_i t <;>
  · simp only [BreatheState.elapsed, BreatheState.idx]
    by_cases h : t + dt ≥ 4
    · rw [BreatheState.advance, if_pos h]
      simp [BreatheState.elapsed, BreatheState.idx, h]
    · rw [BreatheState.advance, if_neg h]
      simp [BreatheState.elapsed, BreatheState.idx, h]

/-! ### Periodicity machinery for C3 -/

lemma advances_nil (s : BreatheState) : advances s [] = s := rfl

lemma advances_cons (s : BreatheState) (d : ℚ) (l : List ℚ) :
    advances s (d :: l) = advances (s.advance d) l := rfl

lemma advance_inv_total (s : BreatheState) (dt : ℚ) (hs0 : 0 ≤ s.elapsed)
    (hs4 : s.elapsed < 4) (hd0 : 0 ≤ dt) (hd4 : dt < 4) :
    0 ≤ (s.advance dt).elapsed ∧ (s.advance dt).elapsed < 4 ∧
    ((s.advance dt).total = s.total + dt ∨
      (s.advance dt).total = s.total + dt - 16) := by
  cases s <;> rename_i t <;>
  · simp only [BreatheState.elapsed] at hs0 hs4
    by_cases h : t + dt ≥ 4
    · rw [BreatheState.advance, if_pos h]
      refine ⟨by simp [BreatheState.elapsed]; linarith,
        by simp [BreatheState.elapsed]; linarith, ?_⟩
      simp only [BreatheState.total, BreatheState.elapsed, BreatheState.idx]
      first
      | (left; push_cast; ring1)
      | (right; push_cast; ring1)
    · rw [BreatheState.advance, if_neg h]
      simp only [ge_iff_le, not_le] at h
      refine ⟨by simp [BreatheState.elapsed]; linarith,
        by simp [BreatheState.elapsed]; linarith, Or.inl ?_⟩
      simp only [BreatheState.total, BreatheState.elapsed, BreatheState.idx]
      ring

lemma advances_inv_total (l : List ℚ) (s : BreatheState) (hs0 : 0 ≤ s.elapsed)
    (hs4 : s.elapsed < 4) (hl : ∀ d ∈ l, 0 ≤ d ∧ d < 4) :
    0 ≤ (advances s l).elapsed ∧ (advances s l).elapsed < 4 ∧
    ∃ k : ℕ, (advances s l).total = s.total + l.sum - 16 * k := by
  induction l generalizing s with
  | nil => exact ⟨hs0, hs4, 0, by simp [advances_nil]⟩
  | cons d l ih =>
    obtain ⟨hd0, hd4⟩ := hl d (List.mem_cons_self d l)
    obtain ⟨h0, h4, hor⟩ := advance_inv_total s d hs0 hs4 hd0 hd4
    obtain ⟨h0p, h4p, k, hk⟩ :=
      ih (s.advance d) h0 h4 (fun x hx => hl x (List.mem_cons_of_mem d hx))
    rw [advances_cons]
    refine ⟨h0p, h4p, ?_⟩
    rcases hor with h | h
    · exact ⟨k, by rw [hk, h, List.sum_cons]; ring⟩
    · refine ⟨k + 1, ?_⟩
      rw [hk, h, List.sum_cons]
      push_cast
      ring

lemma total_nonneg (s : BreatheState) (h : 0 ≤ s.elapsed) : 0 ≤ s.total := by
  cases s <;>
  · simp only [BreatheState.elapsed] at h
    simp only [BreatheState.total, BreatheState.elapsed, BreatheState.idx]
    push_cast
    linarith

lemma total_lt (s : BreatheState) (h : s.elapsed < 4) : s.total < 16 := by
  cases s <;>
  · simp only [BreatheState.elapsed] at h
    simp only [BreatheState.total, BreatheState.elapsed, BreatheState.idx]
    push_cast
    linarith

lemma eq_in_zero_of_total_eq_zero (s : BreatheState) (h0 : 0 ≤ s.elapsed)
    (ht : s.total = 0) : s = BreatheState.In 0 := by
  cases s with
  | In t =>
    simp only [BreatheState.total, BreatheState.elapsed, BreatheState.idx] at ht
    push_cast at ht
    norm_num at ht
    rw [ht]
  | HoldIn t =>
    exfalso
    simp only [BreatheState.elapsed] at h0
    simp only [BreatheState.total, BreatheState.elapsed, BreatheState.idx] at ht
    push_cast at ht
    linarith
  | Out t =>
    exfalso
    simp only [BreatheState.elapsed] at h0
    simp only [BreatheState.total, BreatheState.elapsed, BreatheState.idx] at ht
    push_cast at ht
    linarith
  | HoldOut t =>
    exfalso
    simp only [BreatheState.elapsed] at h0
    simp only [BreatheState.total, BreatheState.elapsed, BreatheState.idx] at ht
    push_cast at ht
    linarith

/-- C3: from `In 0`, any sequence of `advance` calls whose increments each
lie in `[0, 4)` and sum to exactly `16` returns the machine to `In 0`:
one full box-breath cycle is exactly periodic with period 16 seconds. -/
theorem C3_cycle_periodic_sixteen (l : List ℚ)
    (hl : ∀ d ∈ l, 0 ≤ d ∧ d < 4) (hsum : l.sum = 16) :
    advances (BreatheState.In 0) l = BreatheState.In 0 := by
  obtain ⟨h0, h4, k, hk⟩ :=
    advances_inv_total l (BreatheState.In 0)
      (by norm_num [BreatheState.elapsed]) (by norm_num [BreatheState.elapsed]) hl
  rw [hsum] at hk
  have htot0 : (advances (BreatheState.In 0) l).total = 16 - 16 * k := by
    rw [hk]
    simp [BreatheState.total, BreatheState.elapsed, BreatheState.idx]
  have hge : 0 ≤ (advances (BreatheState.In 0) l).total :=
    total_nonneg _ h0
  have hlt : (advances (BreatheState.In 0) l).total < 16 :=
    total_lt _ h4
  have hk1 : k = 1 := by
    rw [htot0] at hge hlt
    rcases Nat.lt_or_ge k 1 with h | h
    · interval_cases k
      · norm_num at hlt
    · rcases Nat.lt_or_ge k 2 with h2 | h2
      · omega
      · exfalso
        have : (2 : ℚ) ≤ (k : ℚ) := by exact_mod_cast h2
        nlinarith
  rw [hk1] at htot0
  norm_num at htot0
  exact eq_in_zero_of_total_eq_zero _ h0 htot0

/-- Witness for C3: eight increments of `2` seconds each sum to `16` and
return the machine to `In 0`. -/
theorem C3_cycle_periodic_sixteen_witness :
    advances (BreatheState.In 0) [2, 2, 2, 2, 2, 2, 2, 2] = BreatheState.In 0 :=
  C3_cycle_periodic_sixteen [2, 2, 2, 2, 2, 2, 2, 2] (by decide)
    (by norm_num [List.sum_cons, List.sum_nil])

/-- C9 counterexample: the closure does not gate draw calls on the render
clock. In the trace below, frame ticks (`MainEventsCleared`) arrive
`1/120 s < 1/60 s` apart and each redraw request is honoured, so two draw
calls are issued `1/120 s` apart — more than one draw in a single
`1/60 s` window, refuting the claimed rate limit at this concrete
input. -/
theorem C9_two_draws_in_one_window :
    drawTimes ⟨0, 0, BreatheState.In 0, false⟩
        [(LoopEvent.MainEventsCleared, 0), (LoopEvent.RedrawRequested, 0),
         (LoopEvent.MainEventsCleared, 1 / 120),
         (LoopEvent.RedrawRequested, 1 / 120)]
      = [0, 1 / 120] ∧
    (1 / 120 : ℚ) - 0 < UPDATE_PERIOD := by
  constructor
  · norm_num [drawTimes, loopStep, BreatheState.advance]
  · norm_num [UPDATE_PERIOD]

/-- C9 amended: the closure never suppresses a draw — every
`RedrawRequested` event issues exactly one draw call regardless of how
recently the last one happened — and the only rate limiting is through
the requested wake-up: on every event the closure stores
`WaitUntil(last_render_time + 1/60)`, so the next wake-up is requested no
earlier than `last_render_time + 1/60 s`. -/
theorem C9_wakeup_rate_limit (s : LoopState) (e : LoopEvent) (now : ℚ) :
    (loopStep s e now).2.wakeUp = s.last_render_time + UPDATE_PERIOD ∧
    ((loopStep s e now).2.drew = true ↔ e = LoopEvent.RedrawRequested) := by
  cases e <;> simp [loopStep]

/-- Witness for C10 at the concrete phase `In 1`, `dt = 5`. -/
theorem C10_single_step_conservation_witness :
    ((BreatheState.In 1).advance 5).elapsed
      = (BreatheState.In 1).elapsed + 5
        - 4 * (if (BreatheState.In 1).elapsed + 5 ≥ 4 then 1 else 0) ∧
    ((BreatheState.In 1).advance 5).idx
      = ((BreatheState.In 1).idx
          + (if (BreatheState.In 1).elapsed + 5 ≥ 4 then 1 else 0)) % 4 :=
  C10_single_step_conservation (BreatheState.In 1) 5
    (by norm_num [BreatheState.elapsed]) (by norm_num)

end JustBreathe
